import Mathlib

/-!
Verification of the docx-analyzer repository: a shallow embedding of the
revision-aware paragraph reconstructor (`src/docx_analyzer/parser.py`),
the review-annotation grammar and comment injector
(`src/docx_analyzer/writer.py`), and the external-locator acceptance step
(`src/docx_analyzer/llm_review.py` and `writer.py`), together with theorems
settling the specification claims about them.

Conventions of the embedding:
* XML elements are modelled by `Node`: a local (namespace-stripped) tag,
  an attribute list with namespace-stripped keys, the element's own text
  (lxml `.text`, only ever used on `w:t` elements), and a child list.
  This mirrors the source, which strips namespaces via `_strip_ns` and
  reads attributes through the single `w:` namespace.
* Python strings are Lean `String`s; indices count unicode scalar values,
  exactly as Python `str` indices count code points.
* Python `dict`s with string keys are association lists with unique keys,
  in insertion order, matching Python dict iteration order.
-/

/-- XML element: namespace-stripped tag, attributes, own text, children. -/
inductive Node where
  | elem (tag : String) (attrs : List (String × String)) (txt : String)
         (children : List Node)
deriving Repr

def Node.tagName : Node → String
  | .elem t _ _ _ => t

def Node.nodeAttrs : Node → List (String × String)
  | .elem _ a _ _ => a

def Node.ownText : Node → String
  | .elem _ _ s _ => s

def Node.nodeChildren : Node → List Node
  | .elem _ _ _ cs => cs

mutual
/-- Embeds `_text_in_element`: concatenated `.text` of all `w:t` proper descendants,
in document order (the xpath `.//w:t` selects proper descendants only). -/
def textInNode : Node → String
  | .elem _ _ _ cs => textInList cs

def textInList : List Node → String
  | [] => ""
  | c :: cs => (if c.tagName = "t" then c.ownText else "") ++ textInNode c ++ textInList cs
end

/-- The `ChangeEvent` dataclass of `parser.py`. -/
structure ChangeEvent where
  kind : String
  text : String
  author : Option String := none
  date : Option String := none
  comment_id : Option String := none
  comment_text : Option String := none
deriving Repr, DecidableEq

/-- One record of the comment directory: `{text, date}` built by
`DocxAnalyzer._load_comments`. -/
structure CommentRec where
  text : String
  date : Option String
deriving Repr, DecidableEq

/-- Comment directory: mapping comment id -> record, as an insertion-ordered
association list with unique keys (a Python dict). -/
abbrev Directory := List (String × CommentRec)

/-- The mutable walk state of `DocxAnalyzer._analyze_paragraph`:
`current_text` (the joined visible-text pieces), the emitted events, and
`active_comment_buffers` (comment id -> accumulated text, a Python dict,
hence insertion-ordered with unique keys). -/
structure WalkState where
  currentText : String
  events : List ChangeEvent
  buffers : List (String × String)
deriving Repr, DecidableEq

/-- Embeds `active_comment_buffers[cid] = []`: reset in place if the key exists,
else insert at the end (Python dict assignment keeps the original slot). -/
def setBuffer : List (String × String) → String → List (String × String)
  | [], cid => [(cid, "")]
  | (k, v) :: rest, cid =>
      if k = cid then (k, "") :: rest else (k, v) :: setBuffer rest cid

/-- Embeds `active_comment_buffers.pop(id_, None)`: remove the entry with that key. -/
def removeBuffer : List (String × String) → String → List (String × String)
  | [], _ => []
  | (k, v) :: rest, cid =>
      if k = cid then rest else (k, v) :: removeBuffer rest cid

/-- Embeds `for buf in active_comment_buffers.values(): buf.append(text)`. -/
def appendToBufs (bufs : List (String × String)) (t : String) : List (String × String) :=
  bufs.map (fun kv => (kv.1, kv.2 ++ t))

/-- The Insert/Delete/MoveFrom/MoveTo event emitted by `walk` for a revision
wrapper: author and date read from the wrapper's `w:author`/`w:date`. -/
def revEvent (kind text : String) (attrs : List (String × String)) : ChangeEvent :=
  { kind := kind, text := text,
    author := attrs.lookup "author", date := attrs.lookup "date" }

/-- The Comment event built by `flush_comment`: text is the accumulated
buffer, body/date resolved from the directory (`self.comments.get(id_, {})`,
whose `.get` returns `None` when the id is absent). -/
def commentEvent (self : Directory) (cid : String) (buf : String) : ChangeEvent :=
  let data := self.lookup cid
  { kind := "comment", text := buf, comment_id := some cid,
    comment_text := data.map (·.text), date := data.bind (·.date) }

/-- Embeds `flush_comment(id_)`: emit one Comment event from the buffer contents
(`"".join(active_comment_buffers.get(id_, []))`) and drop the buffer. -/
def flushComment (self : Directory) (cid : String) (st : WalkState) : WalkState :=
  { st with
    events := st.events ++ [commentEvent self cid ((st.buffers.lookup cid).getD "")],
    buffers := removeBuffer st.buffers cid }

mutual
/-- The `for child in node` loop of `walk`. -/
def walkList (self : Directory) (deletion : Bool) (st : WalkState) :
    List Node → WalkState
  | [] => st
  | c :: cs => walkList self deletion (walkChild self deletion st c) cs

/-- One iteration of the `walk` loop body, dispatching on the stripped tag. -/
def walkChild (self : Directory) (deletion : Bool) (st : WalkState)
    (child : Node) : WalkState :=
  match child with
  | .elem tag attrs _ children =>
    if tag = "ins" then
      let text := textInList children
      let st1 := { st with events := st.events ++ [revEvent "add" text attrs] }
      let st2 := walkList self false st1 children
      if text ≠ "" then
        { st2 with currentText := st2.currentText ++ text,
                   buffers := appendToBufs st2.buffers text }
      else st2
    else if tag = "del" then
      let text := textInList children
      let st1 := { st with events := st.events ++ [revEvent "delete" text attrs] }
      let st2 := walkList self true st1 children
      -- deleted text is intentionally excluded from current_text
      if text ≠ "" then { st2 with buffers := appendToBufs st2.buffers text }
      else st2
    else if tag = "moveFrom" then
      let text := textInList children
      let st1 := { st with events := st.events ++ [revEvent "move_from" text attrs] }
      walkList self true st1 children
    else if tag = "moveTo" then
      let text := textInList children
      let st1 := { st with events := st.events ++ [revEvent "move_to" text attrs] }
      let st2 := walkList self false st1 children
      if text ≠ "" then
        { st2 with currentText := st2.currentText ++ text,
                   buffers := appendToBufs st2.buffers text }
      else st2
    else if tag = "commentRangeStart" then
      match attrs.lookup "id" with
      | some cid => { st with buffers := setBuffer st.buffers cid }
      | none => st
    else if tag = "commentRangeEnd" then
      match attrs.lookup "id" with
      | some cid =>
          if (st.buffers.lookup cid).isSome then flushComment self cid st else st
      | none => st
    else if tag = "r" ∨ tag = "hyperlink" then
      let text := textInList children
      let st1 :=
        if text ≠ "" then
          { st with
            currentText := if deletion then st.currentText else st.currentText ++ text,
            buffers := appendToBufs st.buffers text }
        else st
      -- recurse to catch nested comment markers inside runs
      walkList self deletion st1 children
    else
      walkList self deletion st children
end

/-- The final `for cid in list(active_comment_buffers.keys()): flush_comment(cid)`
loop, as a fold over the buffer entries.  Dict keys are unique and flushing
removes only the flushed key, so flushing each key in order consumes the
entries front to back, appending one Comment event per buffer. -/
def flushLoop (self : Directory) (events : List ChangeEvent) :
    List (String × String) → List ChangeEvent
  | [] => events
  | (cid, b) :: rest => flushLoop self (events ++ [commentEvent self cid b]) rest

def flushAll (self : Directory) (st : WalkState) : WalkState :=
  { st with events := flushLoop self st.events st.buffers, buffers := [] }

/-- Python `\s` / `str.strip()` whitespace (ASCII range). -/
def pyWs (c : Char) : Bool :=
  c = ' ' ∨ c = '\t' ∨ c = '\n' ∨ c = '\r' ∨ c = '\x0b' ∨ c = '\x0c'

/-- Python `str.strip()` on a character list. -/
def stripChars (s : List Char) : List Char :=
  ((s.dropWhile pyWs).reverse.dropWhile pyWs).reverse

/-- Python `str.strip()`. -/
def pyStrip (s : String) : String :=
  String.mk (stripChars s.data)

/-- Sort key of `events.sort(key=lambda x: x.date or "")`. -/
def evKey (e : ChangeEvent) : List Char :=
  (e.date.getD "").data

/-- Python string `<=`: lexicographic comparison by code point, a proper
prefix comparing below any extension. -/
def lexLe : List Char → List Char → Bool
  | [], _ => true
  | _ :: _, [] => false
  | a :: as, b :: bs =>
      if a.toNat < b.toNat then true
      else if b.toNat < a.toNat then false
      else lexLe as bs

/-- Insert an event into an already-sorted list, after every element whose
key is `<=` its own key: the unique stable position. -/
def insertEv (e : ChangeEvent) : List ChangeEvent → List ChangeEvent
  | [] => [e]
  | x :: xs => if lexLe (evKey x) (evKey e) then x :: insertEv e xs else e :: x :: xs

/-- Embeds `events.sort(key=lambda x: x.date or "")`: Python's sort is stable and
ascending; a stable ascending sort is uniquely determined, and insertion
sort inserting after equal keys computes it. -/
def sortEvents (l : List ChangeEvent) : List ChangeEvent :=
  l.foldl (fun acc e => insertEv e acc) []

/-- The `ListInfo` dataclass: numbering details. -/
structure ListInfo where
  num_id : Option String := none
  ilvl : Option String := none
deriving Repr, DecidableEq

/-- xpath `./w:pPr/w:numPr/w:numId` (resp. `w:ilvl`): all matching
grandchildren chains in document order. -/
def childPath (n : Node) (tag : String) : List Node :=
  n.nodeChildren.filter (fun c => c.tagName = tag)

/-- Embeds `DocxAnalyzer._list_info`. -/
def listInfoOf (para : Node) : ListInfo :=
  let numPrs := (childPath para "pPr").flatMap (fun p => childPath p "numPr")
  let numIds := numPrs.flatMap (fun p => childPath p "numId")
  let ilvls := numPrs.flatMap (fun p => childPath p "ilvl")
  { num_id := numIds.head?.bind (fun n => n.nodeAttrs.lookup "val"),
    ilvl := ilvls.head?.bind (fun n => n.nodeAttrs.lookup "val") }

/-- The `ParagraphAnalysis` dataclass. -/
structure ParagraphAnalysis where
  index : Nat
  text : String
  list_info : ListInfo
  events : List ChangeEvent
deriving Repr, DecidableEq

/-- The raw event list of a paragraph before the final sort: the full walk
(`walk(para, deletion=False)` iterates the paragraph's children) followed by
the flush of all still-open comment buffers. -/
def raw_state (self : Directory) (para : Node) : WalkState :=
  flushAll self (walkList self false ⟨"", [], []⟩ para.nodeChildren)

/-- Embeds `DocxAnalyzer._analyze_paragraph`. -/
def analyze_paragraph (self : Directory) (idx : Nat) (para : Node) : ParagraphAnalysis :=
  let st := raw_state self para
  { index := idx, text := pyStrip st.currentText,
    list_info := listInfoOf para, events := sortEvents st.events }

/-- Embeds `DocxAnalyzer._load_comments`, given the parsed comments part when the
archive member exists (`none` models the `KeyError` branch: the comments
part is absent and the directory is empty).  `.//w:comment` collects every
proper descendant tagged `comment`; repeated or missing ids do not occur in
well-formed parts, and a later id would overwrite an earlier one in the
Python dict, which the in-place update mirrors. -/
def setDirectory : Directory → String → CommentRec → Directory
  | [], cid, rec => [(cid, rec)]
  | (k, v) :: rest, cid, rec =>
      if k = cid then (k, rec) :: rest else (k, v) :: setDirectory rest cid rec

mutual
def commentElemsNode : Node → List Node
  | .elem _ _ _ cs => commentElemsList cs

def commentElemsList : List Node → List Node
  | [] => []
  | c :: cs =>
      (if c.tagName = "comment" then [c] else []) ++ commentElemsNode c ++ commentElemsList cs
end

def load_comments : Option Node → Directory
  | none => []
  | some root =>
      (commentElemsNode root).foldl
        (fun dir c =>
          match c.nodeAttrs.lookup "id" with
          | some cid => setDirectory dir cid ⟨textInNode c, c.nodeAttrs.lookup "date"⟩
          | none => dir)
        []

/-! ## Writer side: `src/docx_analyzer/writer.py` -/

/-- A comment target (`CommentTarget` type alias in `writer.py`):
`None` (whole paragraph), a quoted string, or a `(start, end)` pair. -/
inductive CTarget where
  | whole
  | quoted (s : String)
  | span (s e : String)
deriving Repr, DecidableEq

/-- Python `haystack.find(needle)` on character lists: index of the first
occurrence, `none` for Python's `-1`.  Indices count code points, as in
Python. -/
def findSubL (hay needle : List Char) : Option Nat :=
  if needle.isPrefixOf hay then some 0
  else
    match hay with
    | [] => none
    | _ :: t => (findSubL t needle).map (· + 1)

/-- Python `str.find` on strings. -/
def findSubS (hay needle : String) : Option Nat :=
  findSubL hay.data needle.data

/-- Python `needle in hay` substring test. -/
def containsSub (hay needle : String) : Bool :=
  (findSubS hay needle).isSome

/-- The run-overlap selection loop of `find_runs_for_range`: walk the runs
with their cumulative character offsets and keep the index of every run
whose span `[run_start, run_end)` overlaps `[start_idx, end_idx)`. -/
def overlapRuns : List String → Nat → Nat → Nat → Nat → List Nat
  | [], _, _, _, _ => []
  | r :: rest, i, cur, s, e =>
      let runEnd := cur + r.length
      (if runEnd > s ∧ cur < e then [i] else []) ++ overlapRuns rest (i + 1) runEnd s e

/-- Embeds `find_runs_for_range(paragraph, start_text, end_text)`.  A paragraph is
modelled by its run texts; `paragraph.text` is their concatenation.  Runs
are identified by position.  Returns `[]` when the paragraph has no runs,
when `start_text` is absent, or when `end_text` is absent at or after the
start position. -/
def find_runs_for_range (runs : List String) (startText endText : String) : List Nat :=
  if runs = [] then []
  else
    let fullText := String.join runs
    match findSubS fullText startText with
    | none => []
    | some startIdx =>
        match findSubL (fullText.data.drop startIdx) endText.data with
        | none => []
        | some rel =>
            let endIdx := startIdx + rel + endText.length
            overlapRuns runs 0 0 startIdx endIdx

/-- The per-annotation run-selection logic inside `inject_comments_to_docx`
(lines choosing `target_runs` for a tuple / quoted / whole-paragraph
target, including both whole-paragraph fallbacks). -/
def selectRuns (runs : List String) (t : CTarget) : List Nat :=
  match t with
  | .span s e =>
      let tr := find_runs_for_range runs s e
      -- fallback to whole paragraph if range not found
      if tr = [] then List.range runs.length else tr
  | .quoted q =>
      match runs.findIdx? (fun r => containsSub r q) with
      | some i => [i]
      | none => List.range runs.length
  | .whole => List.range runs.length

/-- One comment injected by `doc.add_comment`: the addressed paragraph, the
selected run indices, the comment body and the author label. -/
structure AddedComment where
  para : Nat
  runs : List Nat
  body : String
  author : String
deriving Repr, DecidableEq

/-- A python-docx `Document` at the granularity the injector observes: the
run texts of each body paragraph, plus the accumulated comment anchors.
`add_comment` only adds a comment anchor (its documented contract); it is
modelled as appending an `AddedComment`. -/
structure DocxDoc where
  paras : List (List String)
  comments : List AddedComment
deriving Repr, DecidableEq

/-- The comments produced by the main loop of `inject_comments_to_docx`:
skip an entry when `para_index >= len(doc.paragraphs)` or when the
paragraph has no runs, otherwise add one comment per annotation on the
selected runs.  `comments_map` is a Python dict, modelled as an ordered
association list. -/
def inject_generated (paras : List (List String))
    (m : List (Nat × List (CTarget × String))) (author : String) : List AddedComment :=
  m.foldl
    (fun acc entry =>
      if paras.length ≤ entry.1 then acc
      else
        let runs := paras.getD entry.1 []
        if runs = [] then acc
        else acc ++ entry.2.map (fun tc => ⟨entry.1, selectRuns runs tc.1, tc.2, author⟩))
    []

/-- Embeds `inject_comments_to_docx`: reads the document, adds comments, saves.
The paragraph structure is read-only throughout. -/
def inject_comments_to_docx (doc : DocxDoc)
    (m : List (Nat × List (CTarget × String))) (author : String) : DocxDoc :=
  { doc with comments := doc.comments ++ inject_generated doc.paras m author }

/-! ### The review-annotation grammar of `parse_review_for_comments`

The line pattern is the Python regex
`^\s*[-*\d.]*\s*(?:[*_]{2})?\s*\[段落\s+(\d+)\]\s*(.+)$`, applied with
`re.match` to each `line.strip()`, and the quoted-target pattern is
`^\s*(?:[*_]{2})?\s*"([^"]+)"` applied to the captured trailing text.
The embedding implements the regexes directly, including the one point of
genuine backtracking: trailing `*` characters matched greedily by the
decoration class `[-*\d.]*` may be handed back to the optional emphasis
group `[*_]{2}`.  When a match exists, the capture groups are uniquely
determined (no character class can consume the literal `[` of the marker),
so trying the finitely many hand-back alternatives in any order is faithful. -/

/-- The decoration char class `[-*\d.]` (Python `\d`: the inputs use ASCII
digits). -/
def decorC (c : Char) : Bool :=
  c = '-' ∨ c = '*' ∨ c = '.' ∨ c.isDigit

/-- The emphasis char class `[*_]`. -/
def emphC (c : Char) : Bool :=
  c = '*' ∨ c = '_'

/-- Python `int(...)` on the captured digit group. -/
def natOfDigits (ds : List Char) : Nat :=
  ds.foldl (fun acc c => acc * 10 + (c.toNat - '0'.toNat)) 0

/-- The tail of the line pattern `\[段落\s+(\d+)\]\s*(.+)$`: the literal
marker, at least one whitespace, the digit group, the closing bracket, and
a nonempty remainder.  Returns the paragraph number and the remainder after
the bracket with leading whitespace dropped (the `\s*` before `(.+)`); on a
stripped line this is exactly `group(2)`. -/
def matchAfterDecor : List Char → Option (Nat × List Char)
  | '[' :: '段' :: '落' :: rest =>
      if (rest.takeWhile pyWs).isEmpty then none
      else
        let afterWs := rest.dropWhile pyWs
        let ds := afterWs.takeWhile Char.isDigit
        if ds.isEmpty then none
        else
          match afterWs.drop ds.length with
          | ']' :: tail => if tail.isEmpty then none
                           else some (natOfDigits ds, tail.dropWhile pyWs)
          | _ => none
  | _ => none

/-- Embeds the `re.match` of the full line pattern against a stripped line: skip
leading whitespace, consume the decoration run, optionally hand back up to
two trailing `*`s of the run to the emphasis group, skip the optional
two-character emphasis group and surrounding whitespace, and match the
marker tail. -/
def matchLine (s : List Char) : Option (Nat × List Char) :=
  let s1 := s.dropWhile pyWs
  let run := s1.takeWhile decorC
  let rest := s1.drop run.length
  ([0, 1, 2].filter (· ≤ run.length)).findSome? (fun g =>
    let t := run.drop (run.length - g) ++ rest
    let t1 := t.dropWhile pyWs
    let opts :=
      match t1 with
      | a :: b :: r => if emphC a && emphC b then [r, t1] else [t1]
      | _ => [t1]
    opts.findSome? (fun o => matchAfterDecor (o.dropWhile pyWs)))

/-- The quoted-target pattern `^\s*(?:[*_]{2})?\s*"([^"]+)"`, matched
against the captured trailing text: the capture is the (nonempty) text
between the first quote pair.  Here greedy matching is deterministic: the
emphasis group either matches two emphasis characters or cannot apply. -/
def matchQuote (ft : List Char) : Option (List Char) :=
  let s1 := ft.dropWhile pyWs
  let s2 :=
    match s1 with
    | a :: b :: r => if emphC a && emphC b then r else s1
    | _ => s1
  let s3 := s2.dropWhile pyWs
  match s3 with
  | '"' :: rest =>
      let content := rest.takeWhile (fun c => c ≠ '"')
      if content.isEmpty then none
      else
        match rest.drop content.length with
        | '"' :: _ => some content
        | _ => none
  | _ => none

/-- Python `str.split('\n')` (keeps empty pieces). -/
def splitNl (s : List Char) : List (List Char) :=
  match s with
  | [] => [[]]
  | c :: rest =>
      let tails := splitNl rest
      if c = '\n' then [] :: tails
      else
        match tails with
        | h :: t => (c :: h) :: t
        | [] => [[c]]

/-- Embeds `parse_review_for_comments`, flattened to the matched annotations in
line order: `(paragraph index, optional quoted target, comment body)`.
Each line is stripped, matched against the line pattern, the trailing text
stripped again (`full_text = match.group(2).strip()`), and checked for a
leading quoted target; the full trailing text (quotes included) remains
the body. -/
def parse_review_lines (review : String) : List (Nat × Option String × String) :=
  (splitNl review.data).filterMap (fun line =>
    match matchLine (stripChars line) with
    | none => none
    | some (idx, tail) =>
        let fullText := stripChars tail
        let target := (matchQuote fullText).map String.mk
        some (idx, target, String.mk fullText))

/-- The returned `comments_map` at a given paragraph index: Python dicts
group by key in encounter order, so the per-key list is the in-order
filter of the matched lines. -/
def comments_map_at (review : String) (i : Nat) : List (Option String × String) :=
  (parse_review_lines review).filterMap
    (fun ann => if ann.1 = i then some ann.2 else none)

/-! ### Locator acceptance: `CommentLocator.locate_comments` validation and
the refinement loop of `create_commented_docx` -/

/-- One item of the JSON array returned by the external locator:
`comment_index` (valid only when a non-negative integer) and the `start` /
`end` strings (`item.get("start", "")` defaults a missing key to `""`). -/
structure LocItem where
  cidx : Option Nat
  startT : String
  endT : String
deriving Repr, DecidableEq

/-- The validation loop of `locate_comments` (lines 358-366): initialize
every location to `("", "")` and overwrite position `idx` for each item
whose `comment_index` is an integer within bounds. -/
def validateLocations (n : Nat) (result : List LocItem) : List (String × String) :=
  result.foldl
    (fun locs item =>
      match item.cidx with
      | some i => if i < n then locs.set i (item.startT, item.endT) else locs
      | none => locs)
    (List.replicate n ("", ""))

/-- The target-refinement loop of `create_commented_docx` (lines 210-222):
walk the annotations of one paragraph; each `None` target consumes the
next location and becomes a `(start, end)` span target iff both strings
are nonempty (Python truthiness of `if start and end:`), keeping the
whole-paragraph target otherwise; non-`None` targets pass through.  The
locations list always has exactly one entry per `None` target, so the
default `("", "")` head for an exhausted list is never consulted in the
composed pipeline. -/
def refineTargets : List (CTarget × String) → List (String × String) →
    List (CTarget × String)
  | [], _ => []
  | (CTarget.whole, txt) :: rest, locs =>
      let se := locs.headD ("", "")
      (if se.1 ≠ "" ∧ se.2 ≠ "" then (CTarget.span se.1 se.2, txt)
       else (CTarget.whole, txt)) :: refineTargets rest locs.tail
  | (t, txt) :: rest, locs => (t, txt) :: refineTargets rest locs

/-!
Lemmas about the lexicographic sort key order used by
`events.sort(key=lambda x: x.date or "")`.
-/

theorem lexLe_refl : ∀ l : List Char, lexLe l l = true
  | [] => rfl
  | c :: cs => by simp [lexLe, Nat.lt_irrefl, lexLe_refl cs]

theorem lexLe_nil (l : List Char) : lexLe [] l = true := rfl

theorem lexLe_head_le {a b : Char} {as bs : List Char}
    (h : lexLe (a :: as) (b :: bs) = true) : a.toNat ≤ b.toNat := by
  by_cases hba : b.toNat < a.toNat
  · by_cases hab : a.toNat < b.toNat
    · exact Nat.le_of_lt hab
    · simp [lexLe, hab, hba] at h
  · exact Nat.le_of_not_lt hba

theorem lexLe_cons_eq {a b : Char} (hab : a.toNat = b.toNat) (as bs : List Char) :
    lexLe (a :: as) (b :: bs) = lexLe as bs := by
  simp [lexLe, hab, Nat.lt_irrefl]

theorem lexLe_total : ∀ a b : List Char, lexLe a b = true ∨ lexLe b a = true
  | [], _ => Or.inl rfl
  | _ :: _, [] => Or.inr rfl
  | a :: as, b :: bs => by
      rcases Nat.lt_trichotomy a.toNat b.toNat with h | h | h
      · left; simp [lexLe, h]
      · rcases lexLe_total as bs with ih | ih
        · left; rw [lexLe_cons_eq h]; exact ih
        · right; rw [lexLe_cons_eq h.symm]; exact ih
      · right; simp [lexLe, h]

theorem lexLe_trans : ∀ a b c : List Char,
    lexLe a b = true → lexLe b c = true → lexLe a c = true
  | [], _, _, _, _ => rfl
  | _ :: _, [], _, h, _ => by simp [lexLe] at h
  | _ :: _, _ :: _, [], _, h => by simp [lexLe] at h
  | a :: as, b :: bs, c :: cs, h1, h2 => by
      by_cases hac : a.toNat < c.toNat
      · simp [lexLe, hac]
      · have h1h := lexLe_head_le h1
        have h2h := lexLe_head_le h2
        have hace : a.toNat = c.toNat :=
          Nat.le_antisymm (Nat.le_trans h1h h2h) (Nat.le_of_not_lt hac)
        have habe : a.toNat = b.toNat := by omega
        have hbce : b.toNat = c.toNat := by omega
        rw [lexLe_cons_eq hace]
        rw [lexLe_cons_eq habe] at h1
        rw [lexLe_cons_eq hbce] at h2
        exact lexLe_trans as bs cs h1 h2

/-- The order the event sort arranges by. -/
def evLe (x y : ChangeEvent) : Prop :=
  lexLe (evKey x) (evKey y) = true

theorem insertEv_perm (e : ChangeEvent) : ∀ l, (insertEv e l).Perm (e :: l)
  | [] => List.Perm.refl _
  | x :: xs => by
      by_cases h : lexLe (evKey x) (evKey e) = true
      · simp only [insertEv, if_pos h]
        exact ((insertEv_perm e xs).cons x).trans (List.Perm.swap e x xs)
      · simp only [insertEv, if_neg h]
        exact List.Perm.refl _

theorem insertEv_pairwise (e : ChangeEvent) :
    ∀ l, l.Pairwise evLe → (insertEv e l).Pairwise evLe
  | [], _ => List.pairwise_singleton _ _
  | x :: xs, h => by
      rcases List.pairwise_cons.mp h with ⟨hx, hxs⟩
      by_cases hxe : lexLe (evKey x) (evKey e) = true
      · simp only [insertEv, if_pos hxe]
        refine List.pairwise_cons.mpr ⟨?_, insertEv_pairwise e xs hxs⟩
        intro y hy
        rcases List.mem_cons.mp ((insertEv_perm e xs).mem_iff.mp hy) with rfl | hy'
        · exact hxe
        · exact hx y hy'
      · simp only [insertEv, if_neg hxe]
        have hex : lexLe (evKey e) (evKey x) = true :=
          (lexLe_total _ _).resolve_left hxe
        refine List.pairwise_cons.mpr ⟨?_, h⟩
        intro y hy
        rcases List.mem_cons.mp hy with rfl | hy'
        · exact hex
        · exact lexLe_trans _ _ _ hex (hx y hy')

/-- Restriction of the stable insertion to one key class: inserting an
element into a sorted list appends it to the end of its own key class and
leaves every other class unchanged. -/
theorem filter_insertEv (k : List Char) (e : ChangeEvent) :
    ∀ l, l.Pairwise evLe →
      (insertEv e l).filter (fun x => evKey x == k) =
        l.filter (fun x => evKey x == k) ++ (if evKey e == k then [e] else [])
  | [], _ => by by_cases hek : evKey e == k <;> simp [insertEv, hek]
  | x :: xs, h => by
      rcases List.pairwise_cons.mp h with ⟨hx, hxs⟩
      by_cases hxe : lexLe (evKey x) (evKey e) = true
      · simp only [insertEv, if_pos hxe]
        by_cases hxk : evKey x == k <;>
          simp [List.filter_cons, hxk, filter_insertEv k e xs hxs]
      · simp only [insertEv, if_neg hxe]
        by_cases hek : evKey e == k
        · have hke : evKey e = k := by simpa using hek
          have hfil : (x :: xs).filter (fun y => evKey y == k) = [] := by
            refine List.filter_eq_nil_iff.mpr ?_
            intro y hy hyk
            have hyke : evKey y = evKey e := by
              have hk : evKey y = k := by simpa using hyk
              rw [hk, hke]
            rcases List.mem_cons.mp hy with rfl | hy'
            · exact hxe (by rw [hyke]; exact lexLe_refl _)
            · have hxy : lexLe (evKey x) (evKey y) = true := hx y hy'
              rw [hyke] at hxy
              exact hxe hxy
          simp [List.filter_cons, hek, hfil]
        · simp [List.filter_cons, hek]

/-- Invariant form of the insertion-sort fold: starting from a sorted
accumulator, the fold stays sorted and, key class by key class, appends
the new elements in their emission order. -/
theorem foldl_insertEv (l : List ChangeEvent) :
    ∀ acc, acc.Pairwise evLe →
      (l.foldl (fun a e => insertEv e a) acc).Pairwise evLe ∧
      ∀ k : List Char,
        (l.foldl (fun a e => insertEv e a) acc).filter (fun x => evKey x == k) =
          acc.filter (fun x => evKey x == k) ++ l.filter (fun x => evKey x == k) := by
  induction l with
  | nil => intro acc h; exact ⟨h, fun k => by simp⟩
  | cons e l ih =>
      intro acc h
      have hins := insertEv_pairwise e acc h
      rcases ih (insertEv e acc) hins with ⟨hs, hf⟩
      refine ⟨hs, fun k => ?_⟩
      rw [List.foldl_cons]
      rw [hf k, filter_insertEv k e acc h, List.filter_cons]
      by_cases hek : evKey e == k <;> simp [hek]

/-- The event sort is ascending in the key order. -/
theorem sortEvents_pairwise (l : List ChangeEvent) : (sortEvents l).Pairwise evLe :=
  (foldl_insertEv l [] List.Pairwise.nil).1

/-- The event sort is stable: each key class keeps its emission order. -/
theorem sortEvents_filter (l : List ChangeEvent) (k : List Char) :
    (sortEvents l).filter (fun x => evKey x == k) = l.filter (fun x => evKey x == k) := by
  have := (foldl_insertEv l [] List.Pairwise.nil).2 k
  simpa [sortEvents] using this

/-- The event sort permutes the emitted events. -/
theorem sortEvents_perm (l : List ChangeEvent) : (sortEvents l).Perm l := by
  have aux : ∀ (l acc : List ChangeEvent),
      (l.foldl (fun a e => insertEv e a) acc).Perm (acc ++ l) := by
    intro l
    induction l with
    | nil => intro acc; simp
    | cons e l ih =>
        intro acc
        rw [List.foldl_cons]
        exact (ih (insertEv e acc)).trans
          (((insertEv_perm e acc).append_right l).trans List.perm_middle.symm)
  simpa [sortEvents] using aux l []

/-- The final flush loop emits one Comment event per still-open buffer, in
buffer order, after the events already emitted. -/
theorem flushLoop_events (self : Directory) :
    ∀ (bs : List (String × String)) (events : List ChangeEvent),
      flushLoop self events bs =
        events ++ bs.map (fun cb => commentEvent self cb.1 cb.2) := by
  intro bs
  induction bs with
  | nil => intro events; simp [flushLoop]
  | cons cb rest ih =>
      intro events
      cases cb with
      | mk cid b => rw [flushLoop, ih]; simp

theorem flushAll_events (self : Directory) (st : WalkState) :
    (flushAll self st).events =
      st.events ++ st.buffers.map (fun cb => commentEvent self cb.1 cb.2) := by
  rw [flushAll]
  exact flushLoop_events self st.buffers st.events

/-- Membership in the substring search result characterizes infixes:
`find` succeeds exactly on substrings (Python `needle in hay`). -/
theorem findSubL_isSome_iff : ∀ hay needle : List Char,
    (findSubL hay needle).isSome ↔ needle <:+: hay
  | [], needle => by
      rw [findSubL]
      cases needle with
      | nil => simp [List.isPrefixOf]
      | cons c cs => simp [List.isPrefixOf]
  | h :: t, needle => by
      rw [findSubL]
      by_cases hp : needle.isPrefixOf (h :: t)
      · simp only [if_pos hp, Option.isSome_some, true_iff]
        exact (List.isPrefixOf_iff_prefix.mp hp).isInfix
      · simp only [if_neg hp]
        rw [show (Option.map (fun x => x + 1) (findSubL t needle)).isSome
              = (findSubL t needle).isSome from by cases findSubL t needle <;> rfl]
        rw [findSubL_isSome_iff t needle, List.infix_cons_iff]
        constructor
        · exact Or.inr
        · rintro (hpre | hinf)
          · exact absurd (List.isPrefixOf_iff_prefix.mpr hpre) hp
          · exact hinf

theorem containsSub_false_iff (hay needle : String) :
    containsSub hay needle = false ↔ ¬ needle.data <:+: hay.data := by
  rw [containsSub, findSubS]
  rw [← findSubL_isSome_iff hay.data needle.data]
  cases findSubL hay.data needle.data <;> simp

/-- An infix of a dropped suffix is an infix of the whole list. -/
theorem infix_of_infix_drop {needle l : List Char} {n : Nat}
    (h : needle <:+: l.drop n) : needle <:+: l :=
  h.trans (List.drop_suffix n l).isInfix

/-- A membership bound on the injector output: every generated comment
addresses an in-range paragraph that has at least one run. -/
theorem inject_generated_mem (paras : List (List String)) (author : String) :
    ∀ (m : List (Nat × List (CTarget × String))) (c : AddedComment),
      c ∈ inject_generated paras m author →
      c.para < paras.length ∧ paras.getD c.para [] ≠ [] := by
  have aux : ∀ (m : List (Nat × List (CTarget × String)))
      (acc : List AddedComment) (c : AddedComment),
      c ∈ m.foldl
        (fun acc entry =>
          if paras.length ≤ entry.1 then acc
          else
            let runs := paras.getD entry.1 []
            if runs = [] then acc
            else acc ++ entry.2.map (fun tc => ⟨entry.1, selectRuns runs tc.1, tc.2, author⟩))
        acc →
      c ∈ acc ∨ (c.para < paras.length ∧ paras.getD c.para [] ≠ []) := by
    intro m
    induction m with
    | nil => intro acc c hc; exact Or.inl hc
    | cons entry rest ih =>
        intro acc c hc
        rw [List.foldl_cons] at hc
        by_cases hlen : paras.length ≤ entry.1
        · rw [if_pos hlen] at hc
          exact ih acc c hc
        · rw [if_neg hlen] at hc
          by_cases hruns : paras.getD entry.1 [] = []
          · simp only [hruns, if_pos] at hc
            exact ih acc c (by simpa using hc)
          · simp only [if_neg hruns] at hc
            rcases ih _ c hc with hacc | hdone
            · rcases List.mem_append.mp hacc with hacc' | hmap
              · exact Or.inl hacc'
              · rcases List.mem_map.mp hmap with ⟨tc, _, rfl⟩
                exact Or.inr ⟨Nat.lt_of_not_le hlen, hruns⟩
            · exact Or.inr hdone
  intro m c hc
  rcases aux m [] c hc with hnil | hdone
  · exact absurd hnil (List.not_mem_nil c)
  · exact hdone

/-- Whole-paragraph fallback of span resolution: when either requested
substring does not occur in the paragraph text, `find_runs_for_range`
returns no runs and the injector degrades to every run of the paragraph. -/
theorem selectRuns_span_fallback (runs : List String) (s e : String)
    (h : containsSub (String.join runs) s = false ∨
         containsSub (String.join runs) e = false) :
    selectRuns runs (CTarget.span s e) = List.range runs.length := by
  suffices hfr : find_runs_for_range runs s e = [] by
    simp [selectRuns, hfr]
  rw [find_runs_for_range]
  by_cases hnil : runs = []
  · rw [if_pos hnil]
  · rw [if_neg hnil]
    rcases h with hs | he
    · have hfs : findSubS (String.join runs) s = none := by
        cases hv : findSubS (String.join runs) s with
        | none => rfl
        | some i =>
            rw [containsSub, hv] at hs
            simp at hs
      simp only [hfs]
    · cases hfs : findSubS (String.join runs) s with
      | none => simp only [hfs]
      | some i =>
          have hfe : findSubL ((String.join runs).data.drop i) e.data = none := by
            cases hv : findSubL ((String.join runs).data.drop i) e.data with
            | none => rfl
            | some rel =>
                exfalso
                have hinf : e.data <:+: (String.join runs).data.drop i :=
                  (findSubL_isSome_iff _ _).mp (by rw [hv]; rfl)
                exact (containsSub_false_iff _ _).mp he (infix_of_infix_drop hinf)
          simp only [hfs, hfe]

/-! ## Claim theorems -/

/-- The failing input for claim C1: a paragraph whose only content is an
insertion wrapper around one run with text `X` (markup
`<w:p><w:ins><w:r><w:t>X</w:t></w:r></w:ins></w:p>`). -/
def insOnlyPara : Node :=
  .elem "p" [] "" [.elem "ins" [("author", "A"), ("date", "2024-01-01")] ""
    [.elem "r" [] "" [.elem "t" [] "X" []]]]

/-- C1: falsified by the code.  The claim says the reconstructed text of a
paragraph of plain runs and insertion wrappers is the concatenation of all
run text, with insertion-wrapped text appearing exactly once.  On the
failing input the full run text is `X`, but `_analyze_paragraph` produces
`XX`: the recursive walk into the wrapper's children appends the run text,
and the `ins` branch then appends the wrapper's whole subtree text again. -/
theorem ins_text_duplicated_in_reconstruction :
    (analyze_paragraph [] 0 insOnlyPara).text = "XX" ∧ textInNode insOnlyPara = "X" := by
  exact ⟨rfl, rfl⟩

/-- The failing input for claim C2: a deletion wrapper containing an
insertion wrapper containing a run with text `X` (markup
`<w:p><w:del><w:ins><w:r><w:t>X</w:t></w:r></w:ins></w:del></w:p>`). -/
def delInsPara : Node :=
  .elem "p" [] "" [.elem "del" [("author", "B"), ("date", "2024-01-02")] ""
    [.elem "ins" [("author", "A"), ("date", "2024-01-01")] ""
      [.elem "r" [] "" [.elem "t" [] "X" []]]]]

/-- C2: falsified by the code.  The claim says deletion-wrapped text never
appears in the reconstructed text, for arbitrarily nested wrappers
including an insertion inside a deletion.  On the failing input every
piece of text (`X`) lies inside the deletion wrapper, yet the
reconstruction is `XX`: the `ins` branch ignores the deleted visibility
mode and contributes its text (twice) to the visible output. -/
theorem del_wrapped_ins_text_leaks :
    (analyze_paragraph [] 0 delInsPara).text = "XX" ∧ textInNode delInsPara = "X" := by
  exact ⟨rfl, rfl⟩

/-- C3, counterexample: the lines of the claim use the English marker label
(`[paragraph 5]`, `[paragraph 2]`), but the pattern in
`parse_review_for_comments` hard-codes the Japanese label `段落`, so
neither line matches and no annotation is produced. -/
theorem paragraph_label_line_not_matched :
    parse_review_lines
      "- [paragraph 5] \"liability cap\" unclear\n- [paragraph 2] vague termination clause"
      = [] := by
  decide

/-- C3, amended: with the marker label the code actually uses (`段落`),
the two claimed mappings hold: the quoted line yields paragraph 5 with the
literal target `liability cap` and a body retaining the quotes, and the
unquoted line yields paragraph 2 with no target (whole paragraph). -/
theorem review_lines_parse_with_label :
    parse_review_lines
      "- [段落 5] \"liability cap\" unclear\n- [段落 2] vague termination clause"
      = [(5, some "liability cap", "\"liability cap\" unclear"),
         (2, none, "vague termination clause")] := by
  decide

/-- C4, counterexample: in `locate_comments` the only validation is the
`comment_index` bounds check, and `create_commented_docx` accepts any
location whose two strings are nonempty; a span `("Z", "Q")` is accepted
as the refined target even though neither string occurs in the paragraph
text `abc`, contradicting the claim that such an annotation keeps its
whole-paragraph (None) target. -/
theorem locator_span_accepted_without_substring_check :
    refineTargets [(CTarget.whole, "note")]
        (validateLocations 1 [⟨some 0, "Z", "Q"⟩]) =
      [(CTarget.span "Z" "Q", "note")] ∧
    containsSub "abc" "Z" = false ∧ containsSub "abc" "Q" = false := by
  decide

/-- C4, amended: a locator span is accepted as a `(start, end)` target iff
both strings are nonempty, with no substring validation at acceptance
(call failures yield empty strings and hence the whole-paragraph target);
substring checking happens at injection time, where a span whose start or
end string is absent from the paragraph text degrades to selecting every
run, i.e. whole-paragraph anchoring. -/
theorem locator_span_validation_deferred (runs : List String) (s e txt : String) :
    (refineTargets [(CTarget.whole, txt)] [("", e)] = [(CTarget.whole, txt)]) ∧
    (refineTargets [(CTarget.whole, txt)] [(s, "")] = [(CTarget.whole, txt)]) ∧
    (s ≠ "" → e ≠ "" →
      refineTargets [(CTarget.whole, txt)] [(s, e)] = [(CTarget.span s e, txt)]) ∧
    ((containsSub (String.join runs) s = false ∨
      containsSub (String.join runs) e = false) →
      selectRuns runs (CTarget.span s e) = List.range runs.length) := by
  refine ⟨?_, ?_, ?_, selectRuns_span_fallback runs s e⟩
  · simp [refineTargets]
  · simp [refineTargets]
  · intro hs he
    simp [refineTargets, hs, he]

/-- Witness for the amended C4 theorem at a concrete input: the nonempty
non-substring span `("zz", "x")` is accepted as a span target, and its
injection on the two-run paragraph `ab`/`cd` selects every run. -/
theorem locator_span_validation_deferred_w :
    refineTargets [(CTarget.whole, "n")] [("zz", "x")] =
      [(CTarget.span "zz" "x", "n")] ∧
    selectRuns ["ab", "cd"] (CTarget.span "zz" "x") = List.range 2 :=
  ⟨(locator_span_validation_deferred ["ab", "cd"] "zz" "x" "n").2.2.1
      (by decide) (by decide),
   (locator_span_validation_deferred ["ab", "cd"] "zz" "x" "n").2.2.2
      (Or.inl (by decide))⟩

/-- C5: the events of every analyzed paragraph are sorted ascending in the
key `date or ""` (so undated events, whose key is the minimal key, come
first), and the sort is stable: restricted to any key, the sorted list
equals the emitted list; moreover an undated event's key compares at or
below every key. -/
theorem events_sorted_stable (self : Directory) (idx : Nat) (para : Node) :
    ((analyze_paragraph self idx para).events).Pairwise evLe ∧
    (∀ k : List Char,
      ((analyze_paragraph self idx para).events).filter (fun e => evKey e == k) =
        ((raw_state self para).events).filter (fun e => evKey e == k)) ∧
    (∀ e y : ChangeEvent, e.date = none → lexLe (evKey e) (evKey y) = true) := by
  refine ⟨sortEvents_pairwise _, fun k => sortEvents_filter _ k, ?_⟩
  intro e y hdate
  have hkey : evKey e = [] := by simp [evKey, hdate]
  rw [hkey]
  exact lexLe_nil _

/-- Witness for the undated-lowest clause of C5 at concrete events. -/
theorem events_sorted_stable_w :
    lexLe (evKey { kind := "add", text := "t1", date := none })
          (evKey { kind := "delete", text := "t2", date := some "2024-01-01" }) = true :=
  (events_sorted_stable [] 0 (Node.elem "p" [] "" [])).2.2
    { kind := "add", text := "t1", date := none }
    { kind := "delete", text := "t2", date := some "2024-01-01" } rfl

/-- C6: for a paragraph with at least one run, the run set selected for
comment anchoring is never empty for any kind of target, and imprecise
targets degrade to selecting every run of the paragraph: a `None` target
selects every run, a quoted substring contained in no single run selects
every run, and a span pair whose start or end substring is absent from the
paragraph text selects every run. -/
theorem selected_runs_nonempty (runs : List String) (h : runs ≠ []) :
    (∀ t : CTarget, selectRuns runs t ≠ []) ∧
    selectRuns runs CTarget.whole = List.range runs.length ∧
    (∀ q : String, (∀ r ∈ runs, containsSub r q = false) →
      selectRuns runs (CTarget.quoted q) = List.range runs.length) ∧
    (∀ s e : String,
      (containsSub (String.join runs) s = false ∨
       containsSub (String.join runs) e = false) →
      selectRuns runs (CTarget.span s e) = List.range runs.length) := by
  have hrange : List.range runs.length ≠ [] := by
    simp only [ne_eq, List.range_eq_nil]
    exact fun hz => h (List.length_eq_zero.mp hz)
  refine ⟨?_, rfl, ?_, fun s e hse => selectRuns_span_fallback runs s e hse⟩
  · intro t
    cases t with
    | whole => simpa [selectRuns] using hrange
    | quoted q =>
        rw [selectRuns]
        cases hfi : runs.findIdx? (fun r => containsSub r q) with
        | some i => simp
        | none => simpa using hrange
    | span s e =>
        rw [selectRuns]
        by_cases htr : find_runs_for_range runs s e = []
        · simpa [htr] using hrange
        · simp [htr]
  · intro q hq
    have hfi : runs.findIdx? (fun r => containsSub r q) = none :=
      List.findIdx?_eq_none_iff.mpr hq
    rw [selectRuns]
    simp only [hfi]

/-- Witness for C6 on the two-run paragraph `ab`/`cd`: the uncontained
quoted target `zz` and the absent span pair `("zz", "qq")` each select
every run, and the whole-paragraph target selects a nonempty run set. -/
theorem selected_runs_nonempty_w :
    selectRuns ["ab", "cd"] (CTarget.quoted "zz") = List.range 2 ∧
    selectRuns ["ab", "cd"] (CTarget.span "zz" "qq") = List.range 2 ∧
    selectRuns ["ab", "cd"] CTarget.whole ≠ [] :=
  ⟨(selected_runs_nonempty ["ab", "cd"] (by decide)).2.2.1 "zz" (by decide),
   (selected_runs_nonempty ["ab", "cd"] (by decide)).2.2.2 "zz" "qq"
     (Or.inl (by decide)),
   (selected_runs_nonempty ["ab", "cd"] (by decide)).1 CTarget.whole⟩

/-- C7: a comment-range-end marker whose id has an open buffer but is
absent from the comment directory still emits a Comment event carrying the
accumulated range text, with body and date resolved to nothing (the
empty-directory case of a missing comments part is the instance
`self = []`). -/
theorem missing_comment_id_still_emits (self : Directory) (deletion : Bool)
    (st : WalkState) (cid b : String)
    (hdir : self.lookup cid = none) (hbuf : st.buffers.lookup cid = some b) :
    walkChild self deletion st (Node.elem "commentRangeEnd" [("id", cid)] "" []) =
      { st with
        events := st.events ++
          [{ kind := "comment", text := b, comment_id := some cid,
             comment_text := none, date := none }],
        buffers := removeBuffer st.buffers cid } := by
  rw [walkChild]
  simp [flushComment, commentEvent, hdir, hbuf, List.lookup]

/-- Witness for C7: flushing id `1`, absent from the empty directory, with
buffer contents `A`. -/
theorem missing_comment_id_still_emits_w :
    ([] : Directory).lookup "1" = none ∧
    walkChild [] false ⟨"", [], [("1", "A")]⟩
        (Node.elem "commentRangeEnd" [("id", "1")] "" []) =
      ⟨"", [{ kind := "comment", text := "A", comment_id := some "1",
              comment_text := none, date := none }], []⟩ := by
  refine ⟨rfl, ?_⟩
  rw [missing_comment_id_still_emits [] false ⟨"", [], [("1", "A")]⟩ "1" "A"
        rfl (by decide)]
  decide

/-- C8: every comment buffer still open when the paragraph walk ends is
flushed, not dropped: the analyzed paragraph contains a Comment event for
its id carrying exactly the accumulated text. -/
theorem unterminated_comment_flushed (self : Directory) (para : Node)
    (cid b : String)
    (hmem : (cid, b) ∈ (walkList self false ⟨"", [], []⟩ para.nodeChildren).buffers) :
    ∃ ev ∈ (analyze_paragraph self 0 para).events,
      ev.kind = "comment" ∧ ev.comment_id = some cid ∧ ev.text = b := by
  refine ⟨commentEvent self cid b, ?_, rfl, rfl, rfl⟩
  have hraw : commentEvent self cid b ∈ (raw_state self para).events := by
    rw [raw_state, flushAll_events]
    refine List.mem_append.mpr (Or.inr ?_)
    exact List.mem_map.mpr ⟨(cid, b), hmem, rfl⟩
  have hev : (analyze_paragraph self 0 para).events =
      sortEvents (raw_state self para).events := rfl
  rw [hev]
  exact (sortEvents_perm _).mem_iff.mpr hraw

/-- Witness for C8: a paragraph whose comment range `7` is opened but never
closed still yields a Comment event with the accumulated text `AB`. -/
theorem unterminated_comment_flushed_w :
    ("7", "AB") ∈ (walkList [] false ⟨"", [], []⟩
        (Node.elem "p" [] "" [Node.elem "commentRangeStart" [("id", "7")] "" [],
          Node.elem "r" [] "" [Node.elem "t" [] "AB" []]]).nodeChildren).buffers ∧
    ∃ ev ∈ (analyze_paragraph [] 0
        (Node.elem "p" [] "" [Node.elem "commentRangeStart" [("id", "7")] "" [],
          Node.elem "r" [] "" [Node.elem "t" [] "AB" []]])).events,
      ev.kind = "comment" ∧ ev.comment_id = some "7" ∧ ev.text = "AB" :=
  ⟨by decide,
   unterminated_comment_flushed [] _ "7" "AB" (by decide)⟩

/-- C9: injection never touches the paragraphs (python-docx `add_comment`
only adds a comment anchor), and every comment the injector generates
addresses an in-range paragraph, so an annotation with an out-of-range
index contributes no comment. -/
theorem out_of_range_annotations_skipped (doc : DocxDoc)
    (m : List (Nat × List (CTarget × String))) (author : String) :
    (inject_comments_to_docx doc m author).paras = doc.paras ∧
    ∀ c ∈ inject_generated doc.paras m author, c.para < doc.paras.length :=
  ⟨rfl, fun c hc => (inject_generated_mem doc.paras author m c hc).1⟩

/-- Witness for C9: with one one-run paragraph, the entry for index 5 is
dropped and the single generated comment addresses paragraph 0. -/
theorem out_of_range_annotations_skipped_w :
    (⟨0, [0], "x", "A"⟩ : AddedComment) ∈
      inject_generated [["a"]]
        [(0, [(CTarget.whole, "x")]), (5, [(CTarget.whole, "z")])] "A" ∧
    (⟨0, [0], "x", "A"⟩ : AddedComment).para < ([["a"]] : List (List String)).length :=
  ⟨by decide,
   (out_of_range_annotations_skipped ⟨[["a"]], []⟩
       [(0, [(CTarget.whole, "x")]), (5, [(CTarget.whole, "z")])] "A").2
     ⟨0, [0], "x", "A"⟩ (by decide)⟩

/-- C10: an in-range paragraph with zero runs is skipped silently: no
generated comment addresses it, whatever the annotation map contains. -/
theorem empty_run_paragraph_skipped (paras : List (List String))
    (m : List (Nat × List (CTarget × String))) (author : String) (i : Nat)
    (_hi : i < paras.length) (hempty : paras.getD i [] = []) :
    ∀ c ∈ inject_generated paras m author, c.para ≠ i := by
  intro c hc heq
  have hmem := (inject_generated_mem paras author m c hc).2
  rw [heq] at hmem
  exact hmem hempty

/-- Witness for C10: paragraph 0 exists but has no runs; the annotation
addressed to it injects nothing, while paragraph 1 still receives its
comment. -/
theorem empty_run_paragraph_skipped_w :
    (0 : Nat) < ([[], ["a"]] : List (List String)).length ∧
    ([[], ["a"]] : List (List String)).getD 0 [] = [] ∧
    ∀ c ∈ inject_generated [[], ["a"]]
        [(0, [(CTarget.whole, "x")]), (1, [(CTarget.whole, "y")])] "A",
      c.para ≠ 0 :=
  ⟨by decide, by decide,
   empty_run_paragraph_skipped [[], ["a"]]
     [(0, [(CTarget.whole, "x")]), (1, [(CTarget.whole, "y")])] "A" 0
     (by decide) (by decide)⟩
